import Mathlib

/-!
Verification of the streamline-tracing core of `streamline.py`.

The embedding models IEEE doubles at the granularity the code observes:
the only predicate the code applies to float values is `np.isfinite`, so
all non-finite values (NaN, +inf, -inf) are collapsed into one `FVal.nan`
constructor and finite values are carried exactly as rationals.
-/

/-- A floating-point value as observed by the code: either a finite number
(carried exactly as a rational) or a non-finite value.  `np.isfinite`
distinguishes exactly these two classes, so NaN and the infinities are
collapsed into `nan`. -/
inductive FVal where
  | fin : ℚ → FVal
  | nan : FVal
deriving DecidableEq, Repr

/-- IEEE addition at the finite/non-finite granularity: any non-finite
operand yields a non-finite result. -/
def FVal.add : FVal → FVal → FVal
  | FVal.fin a, FVal.fin b => FVal.fin (a + b)
  | _, _ => FVal.nan

/-- IEEE multiplication at the finite/non-finite granularity: any non-finite
operand yields a non-finite result (note 0 * NaN = NaN in IEEE). -/
def FVal.mul : FVal → FVal → FVal
  | FVal.fin a, FVal.fin b => FVal.fin (a * b)
  | _, _ => FVal.nan

/-- IEEE division at the finite/non-finite granularity: a zero divisor
yields a non-finite result (inf or NaN), as does any non-finite operand. -/
def FVal.div : FVal → FVal → FVal
  | FVal.fin a, FVal.fin b => if b = 0 then FVal.nan else FVal.fin (a / b)
  | _, _ => FVal.nan

/-- Rational stand-in for floating `sqrt` on nonnegative inputs.  Exact at 0
(and at perfect squares of naturals); an approximation elsewhere, as the
floating-point `np.sqrt` itself is.  No claim proved here depends on its
value away from 0. -/
def ratSqrt (q : ℚ) : ℚ := (Nat.sqrt q.num.toNat : ℚ) / (Nat.sqrt q.den : ℚ)

/-- `np.sqrt` at the finite/non-finite granularity: NaN on non-finite or
negative input, finite nonnegative otherwise (exact at 0). -/
def FVal.root : FVal → FVal
  | FVal.fin q => if q < 0 then FVal.nan else FVal.fin (ratSqrt q)
  | FVal.nan => FVal.nan

/-- A point of the plane, `(x, y)`. -/
abbrev Vec2 := ℚ × ℚ

/-- Componentwise addition of plane vectors. -/
def vadd (a b : Vec2) : Vec2 := (a.1 + b.1, a.2 + b.2)

/-- Scalar multiplication of a plane vector. -/
def vsmul (c : ℚ) (a : Vec2) : Vec2 := (c * a.1, c * a.2)

/-- The coordinate sequence is strictly increasing. -/
def strictIncb : List ℚ → Bool
  | [] => true
  | [_] => true
  | a :: b :: rest => decide (a < b) && strictIncb (b :: rest)

/-- The coordinate sequence is strictly decreasing. -/
def strictDecb : List ℚ → Bool
  | [] => true
  | [_] => true
  | a :: b :: rest => decide (b < a) && strictDecb (b :: rest)

/-- `RegularGridInterpolator`'s documented constraint on one coordinate
axis: the points must be strictly ascending or strictly descending
(duplicates and non-monotonic sequences are rejected). -/
def validAxis (g : List ℚ) : Bool := strictIncb g || strictDecb g

/-- Locate the interpolation cell for coordinate `v` on a strictly
ascending axis `g`, as scipy does: the cell index is
`clip(searchsorted(g, v, side = right) - 1, 0, n - 2)` and the (unclamped)
normalized distance is `(v - g[i]) / (g[i+1] - g[i])`; a point outside the
axis range therefore gets a weight below 0 or above 1, which is exactly
the `fill_value=None` linear extrapolation.  A one-point axis is a no-op
(weight 0 on its single point). -/
def axisLoc (g : List ℚ) (v : ℚ) : ℕ × ℚ :=
  if g.length ≤ 1 then (0, 0)
  else
    let i := min (g.countP (fun a => decide (a ≤ v)) - 1) (g.length - 2)
    (i, (v - g.getD i 0) / (g.getD (i + 1) 0 - g.getD i 0))

/-- Bilinear interpolation (scipy `method="linear"`) over ascending axes
`ys` (first axis, rows of `M`) and `xs` (second axis, columns), evaluated
at `(y, x)`: the flat corner sum with products of 1-D weights.  Weights
are not clamped, so outside the domain this linearly extrapolates from
the nearest edge cell (`fill_value=None`).  A non-finite corner makes the
result non-finite, matching IEEE arithmetic in the corner sum. -/
def interp2 (ys xs : List ℚ) (M : List (List FVal)) (y x : ℚ) : FVal :=
  let p := axisLoc ys y
  let q := axisLoc xs x
  let gv := fun r c => (M.getD r []).getD c (FVal.fin 0)
  (((FVal.fin ((1 - p.2) * (1 - q.2))).mul (gv p.1 q.1)).add
      ((FVal.fin ((1 - p.2) * q.2)).mul (gv p.1 (q.1 + 1)))).add
    ((((FVal.fin (p.2 * (1 - q.2))).mul (gv (p.1 + 1) q.1))).add
      ((FVal.fin (p.2 * q.2)).mul (gv (p.1 + 1) (q.1 + 1))))

/-- scipy normalizes a strictly descending first axis by reversing it and
flipping the value array along that axis. -/
def canonY (ys : List ℚ) (M : List (List FVal)) : List ℚ × List (List FVal) :=
  if strictDecb ys && !strictIncb ys then (ys.reverse, M.reverse) else (ys, M)

/-- scipy normalizes a strictly descending second axis by reversing it and
flipping each row of the value array. -/
def canonX (xs : List ℚ) (M : List (List FVal)) : List ℚ × List (List FVal) :=
  if strictDecb xs && !strictIncb xs then (xs.reverse, M.map List.reverse) else (xs, M)

/-- `RegularGridInterpolator((ys, xs), M, bounds_error=False,
fill_value=None)` evaluated at `(y, x)`: descending axes are normalized to
ascending ones, then bilinear interpolation with unclamped weights
(linear extrapolation outside the domain) is applied. -/
def interp2c (ys xs : List ℚ) (M : List (List FVal)) (y x : ℚ) : FVal :=
  let py := canonY ys M
  let px := canonX xs py.2
  interp2 py.1 px.1 px.2 y x

/-- `np.sqrt(U**2 + V**2)` elementwise (shapes are equal whenever this is
reached, since both interpolator constructions validated them). -/
def speedArr (U V : List (List FVal)) : List (List FVal) :=
  List.zipWith
    (fun ru rv => List.zipWith (fun u v => FVal.root ((u.mul u).add (v.mul v))) ru rv)
    U V

/-- The `normalizer` of `streamline.py`: the interpolated local speed when
`normalize_velocity` is set, and the constant `1.0` otherwise. -/
def normalizer (normalize_velocity : Bool) (ys xs : List ℚ) (U V : List (List FVal))
    (y x : ℚ) : FVal :=
  if normalize_velocity then interp2c ys xs (speedArr U V) y x else FVal.fin 1

/-- The `velocity_field` closure of `streamline.py`: interpolate U and V at
`(y, x)`, divide by the normalizer, and return the pair if both components
are finite, else the zero vector (the out-of-bounds / stagnation stall
convention). -/
def velocity_field (normalize_velocity : Bool) (ys xs : List ℚ)
    (U V : List (List FVal)) (t : ℚ) (xy : Vec2) : Vec2 :=
  let u := (interp2c ys xs U xy.2 xy.1).div (normalizer normalize_velocity ys xs U V xy.2 xy.1)
  let v := (interp2c ys xs V xy.2 xy.1).div (normalizer normalize_velocity ys xs U V xy.2 xy.1)
  match u, v with
  | FVal.fin a, FVal.fin b => (a, b)
  | _, _ => (0, 0)

/-- `np.linspace a b n`: `n` evenly spaced samples from `a` to `b`
inclusive (`[a]` for `n = 1`, empty for `n = 0`). -/
def linspace (a b : ℚ) (n : ℕ) : List ℚ :=
  if n = 0 then []
  else if n = 1 then [a]
  else (List.range n).map (fun i : ℕ => a + (b - a) * (i : ℚ) / ((n : ℚ) - 1))

/-- `X[0, :]`: the first row of the meshgrid `X`. -/
def row0 (X : List (List ℚ)) : List ℚ := X.getD 0 []

/-- `Y[:, 0]`: the first column of the meshgrid `Y`. -/
def col0 (Y : List (List ℚ)) : List ℚ := Y.map (fun r => r.getD 0 0)

/-- Model of `scipy.integrate.solve_ivp`'s documented contract, as used by
`streamline.py`: given a right-hand side, a time span, an initial value
and the `t_eval` sample times, it returns one solution sample per
`t_eval` entry (`length_eq` — the output is not truncated), the sample at
time 0 is the initial value exactly (`first_eq`), and once a sampled
position has identically zero derivative every later sample equals it
(`stall` — a stalled solution stays put).  The solver `method` string of
the source selects one such solver; claims quantify over all of them. -/
structure IvpSolver where
  solve : (ℚ → Vec2 → Vec2) → ℚ × ℚ → Vec2 → List ℚ → List Vec2
  length_eq : ∀ f span y0 ts, (solve f span y0 ts).length = ts.length
  first_eq : ∀ f span y0 ts, ts.head? = some 0 → (solve f span y0 ts).head? = some y0
  stall : ∀ f span y0 ts i j p, (solve f span y0 ts).get? i = some p →
    (∀ t, f t p = (0, 0)) → i ≤ j → j < ts.length → (solve f span y0 ts).get? j = some p

/-- `t_eval_fwd = np.linspace(0, t_max, max_points)`. -/
def t_eval_fwd (t_max : ℚ) (max_points : ℕ) : List ℚ := linspace 0 t_max max_points

/-- `t_eval_bwd = np.linspace(0, -t_max, max_points)`. -/
def t_eval_bwd (t_max : ℚ) (max_points : ℕ) : List ℚ := linspace 0 (-t_max) max_points

/-- `sol_fwd` / `fwd_points`: the forward integration run of `streamline`,
sampled at `t_eval_fwd`. -/
def fwd_points (S : IvpSolver) (X Y : List (List ℚ)) (U V : List (List FVal))
    (start_point : Vec2) (t_max : ℚ) (max_points : ℕ) (normalize_velocity : Bool) :
    List Vec2 :=
  S.solve (velocity_field normalize_velocity (col0 Y) (row0 X) U V) (0, t_max)
    start_point (t_eval_fwd t_max max_points)

/-- `sol_bwd` / `bwd_points`: the backward integration run of `streamline`,
sampled at `t_eval_bwd`. -/
def bwd_points (S : IvpSolver) (X Y : List (List ℚ)) (U V : List (List FVal))
    (start_point : Vec2) (t_max : ℚ) (max_points : ℕ) (normalize_velocity : Bool) :
    List Vec2 :=
  S.solve (velocity_field normalize_velocity (col0 Y) (row0 X) U V) (0, -t_max)
    start_point (t_eval_bwd t_max max_points)

/-- `np.vstack((bwd_points[::-1], fwd_points[1:]))`: the merged streamline
returned on success. -/
def streamline_points (S : IvpSolver) (X Y : List (List ℚ)) (U V : List (List FVal))
    (start_point : Vec2) (t_max : ℚ) (max_points : ℕ) (normalize_velocity : Bool) :
    List Vec2 :=
  (bwd_points S X Y U V start_point t_max max_points normalize_velocity).reverse ++
    (fwd_points S X Y U V start_point t_max max_points normalize_velocity).drop 1

/-- The value array's shape matches the grid: one row per `ys` entry, one
column per `xs` entry. -/
def shapeOkb (ys xs : List ℚ) (M : List (List FVal)) : Bool :=
  (M.length == ys.length) && M.all (fun r => r.length == xs.length)

/-- `RegularGridInterpolator`'s construction-time validation: both axes
strictly monotonic (ascending or descending, no duplicates) and the value
array's shape matching the grid; otherwise it raises a `ValueError`. -/
def checkInterp (ys xs : List ℚ) (M : List (List FVal)) : Except String Unit :=
  if validAxis ys && validAxis xs && shapeOkb ys xs M then Except.ok ()
  else Except.error "invalid grid axes or value shape"

/-- `streamline(X, Y, U, V, start_point, t_max, max_points, method,
normalize_velocity)`: construct the U interpolator, then the V
interpolator, then (only under normalization) the speed interpolator —
each construction validating the grid — and on success return the merged
trajectory of the backward and forward integration runs.  The solver
`method` is modelled by the `IvpSolver` argument. -/
def streamline (S : IvpSolver) (X Y : List (List ℚ)) (U V : List (List FVal))
    (start_point : Vec2) (t_max : ℚ) (max_points : ℕ) (normalize_velocity : Bool) :
    Except String (List Vec2) := do
  _ ← checkInterp (col0 Y) (row0 X) U
  _ ← checkInterp (col0 Y) (row0 X) V
  _ ← (if normalize_velocity then checkInterp (col0 Y) (row0 X) (speedArr U V)
       else Except.ok ())
  pure (streamline_points S X Y U V start_point t_max max_points normalize_velocity)

/-- Fixed-step explicit Euler sampling: from state `y` at time `tPrev`,
advance to each requested sample time in turn with one Euler step.  This
is a concrete solver satisfying the `IvpSolver` contract, used to witness
the claims (and to refute universally quantified ones). -/
def eulerSteps (f : ℚ → Vec2 → Vec2) : ℚ → Vec2 → List ℚ → List Vec2
  | _, _, [] => []
  | tPrev, y, t :: ts =>
    let y1 := vadd y (vsmul (t - tPrev) (f tPrev y))
    y1 :: eulerSteps f t y1 ts

theorem eulerSteps_length (f : ℚ → Vec2 → Vec2) :
    ∀ (ts : List ℚ) (t0 : ℚ) (y : Vec2), (eulerSteps f t0 y ts).length = ts.length := by
  intro ts
  induction ts with
  | nil => intro t0 y; rfl
  | cons t rest ih =>
    intro t0 y
    simp only [eulerSteps, List.length_cons]
    rw [ih]

theorem vadd_vsmul_zero (y : Vec2) (c : ℚ) (v : Vec2) (h : c = 0) :
    vadd y (vsmul c v) = y := by
  cases y with
  | mk a b => simp [vadd, vsmul, h]

theorem eulerSteps_const (f : ℚ → Vec2 → Vec2) (p : Vec2) (hf : ∀ t, f t p = (0, 0)) :
    ∀ (ts : List ℚ) (t0 : ℚ), eulerSteps f t0 p ts = ts.map (fun _ => p) := by
  intro ts
  induction ts with
  | nil => intro t0; rfl
  | cons t rest ih =>
    intro t0
    simp only [eulerSteps, List.map_cons]
    have h1 : vadd p (vsmul (t - t0) (f t0 p)) = p := by
      rw [hf t0]
      cases p with
      | mk a b => simp [vadd, vsmul]
    rw [h1, ih]

theorem eulerSteps_stall (f : ℚ → Vec2 → Vec2) (p : Vec2) (hf : ∀ t, f t p = (0, 0)) :
    ∀ (ts : List ℚ) (t0 : ℚ) (y : Vec2) (i j : ℕ),
      (eulerSteps f t0 y ts).get? i = some p → i ≤ j → j < ts.length →
      (eulerSteps f t0 y ts).get? j = some p := by
  intro ts
  induction ts with
  | nil => intro t0 y i j hi _ hj; simp at hj
  | cons t rest ih =>
    intro t0 y i j hi hij hj
    simp only [eulerSteps] at hi ⊢
    cases i with
    | zero =>
      have hy1 : vadd y (vsmul (t - t0) (f t0 y)) = p := by
        simpa using hi
      cases j with
      | zero => simpa using hy1
      | succ k =>
        simp only [List.get?_cons_succ]
        rw [hy1, eulerSteps_const f p hf rest t]
        have hk : k < rest.length := by
          simpa [List.length_cons, Nat.succ_lt_succ_iff] using hj
        rw [List.get?_map]
        rw [(List.get?_eq_get hk : rest.get? k = some (rest.get ⟨k, hk⟩))]
        rfl
    | succ m =>
      cases j with
      | zero => omega
      | succ k =>
        simp only [List.get?_cons_succ] at hi ⊢
        exact ih t (vadd y (vsmul (t - t0) (f t0 y))) m k hi (Nat.succ_le_succ_iff.mp hij)
          (by simpa [List.length_cons, Nat.succ_lt_succ_iff] using hj)

theorem eulerSteps_head (f : ℚ → Vec2 → Vec2) (y : Vec2) (ts : List ℚ) :
    (eulerSteps f 0 y (0 :: ts)).head? = some y := by
  simp only [eulerSteps, List.head?_cons]
  congr 1
  rw [show (0 : ℚ) - 0 = 0 by ring]
  exact vadd_vsmul_zero y 0 _ rfl

/-- The concrete `IvpSolver` instance: explicit Euler stepping between the
requested sample times, starting at the initial value at time 0. -/
def eulerSolver : IvpSolver where
  solve := fun f _ y0 ts => eulerSteps f 0 y0 ts
  length_eq := fun f _ y0 ts => eulerSteps_length f ts 0 y0
  first_eq := by
    intro f span y0 ts h
    cases ts with
    | nil => simp at h
    | cons t rest =>
      have ht : t = 0 := by simpa using h
      subst ht
      exact eulerSteps_head f y0 rest
  stall := by
    intro f span y0 ts i j p hi hf hij hj
    exact eulerSteps_stall f p hf ts 0 y0 i j hi hij hj

/-- Follows the spec's words (§4.1, for the refinement comparison of claim
C4): the lower end of an ascending coordinate axis. -/
def axisLo (g : List ℚ) : ℚ := g.headD 0

/-- Follows the spec's words (§4.1): the upper end of an ascending
coordinate axis. -/
def axisHi (g : List ℚ) : ℚ := g.getLastD 0

/-- Follows the spec's words (§4.1): clamp a coordinate to the axis range. -/
def clampCoord (g : List ℚ) (v : ℚ) : ℚ := max (axisLo g) (min v (axisHi g))

/-- Follows the spec's words for claim C4 ("the value obtained by clamping
(x, y) to the domain boundary"): sample the interpolator at the
boundary-clamped point. -/
def clampedEdgeValue (ys xs : List ℚ) (M : List (List FVal)) (y x : ℚ) : FVal :=
  interp2c ys xs M (clampCoord ys y) (clampCoord xs x)

/-- Follows the spec's words (§8, claim C5): the point lies strictly
outside the grid's bounding rectangle (ascending axes). -/
def strictlyOutside (ys xs : List ℚ) (p : Vec2) : Prop :=
  p.1 < axisLo xs ∨ axisHi xs < p.1 ∨ p.2 < axisLo ys ∨ axisHi ys < p.2

instance (ys xs : List ℚ) (p : Vec2) : Decidable (strictlyOutside ys xs p) := by
  unfold strictlyOutside; infer_instance

theorem FVal.nan_add (b : FVal) : FVal.nan.add b = FVal.nan := by cases b <;> rfl

theorem FVal.add_nan (a : FVal) : a.add FVal.nan = FVal.nan := by cases a <;> rfl

theorem FVal.mul_nan (a : FVal) : a.mul FVal.nan = FVal.nan := by cases a <;> rfl

theorem FVal.nan_div (b : FVal) : FVal.nan.div b = FVal.nan := by cases b <;> rfl

theorem FVal.div_zero_nan (a : FVal) : a.div (FVal.fin 0) = FVal.nan := by
  cases a <;> simp [FVal.div]

/-- All entries of a value array are the given value. -/
def allEntries (M : List (List FVal)) (a : FVal) : Prop := ∀ r ∈ M, ∀ v ∈ r, v = a

theorem allEntries_canonY (ys : List ℚ) (M : List (List FVal)) (a : FVal)
    (h : allEntries M a) : allEntries (canonY ys M).2 a := by
  unfold canonY
  split
  · intro r hr v hv
    exact h r (List.mem_reverse.mp hr) v hv
  · exact h

theorem allEntries_canonX (xs : List ℚ) (M : List (List FVal)) (a : FVal)
    (h : allEntries M a) : allEntries (canonX xs M).2 a := by
  unfold canonX
  split
  · intro r hr v hv
    obtain ⟨r0, hr0, hrev⟩ := List.mem_map.mp hr
    exact h r0 hr0 v (List.mem_reverse.mp (hrev ▸ hv))
  · exact h

/-- Any corner read from an array with every entry equal to `fin 0` is
`fin 0` (the out-of-range default coincides). -/
theorem corner_zero (M : List (List FVal)) (h : allEntries M (FVal.fin 0)) (r c : ℕ) :
    (M.getD r []).getD c (FVal.fin 0) = FVal.fin 0 := by
  unfold List.getD
  cases hr : M[r]? with
  | none => simp [hr]
  | some row =>
    have hrow : row ∈ M := by
      obtain ⟨hlt, he⟩ := List.getElem?_eq_some_iff.mp hr
      exact he ▸ List.getElem_mem hlt
    cases hc : row[c]? with
    | none => simp [hr, hc]
    | some v =>
      have hvm : v ∈ row := by
        obtain ⟨hlt, he⟩ := List.getElem?_eq_some_iff.mp hc
        exact he ▸ List.getElem_mem hlt
      have hv := h row hrow v hvm
      simp [hr, hc, hv]

theorem interp2_allzero (ys xs : List ℚ) (M : List (List FVal)) (y x : ℚ)
    (h : allEntries M (FVal.fin 0)) : interp2 ys xs M y x = FVal.fin 0 := by
  unfold interp2
  simp only [corner_zero M h]
  simp [FVal.mul, FVal.add]

theorem interp2c_allzero (ys xs : List ℚ) (M : List (List FVal)) (y x : ℚ)
    (h : allEntries M (FVal.fin 0)) : interp2c ys xs M y x = FVal.fin 0 :=
  interp2_allzero _ _ _ _ _ (allEntries_canonX _ _ _ (allEntries_canonY _ _ _ h))

theorem linspace_length (a b : ℚ) (n : ℕ) : (linspace a b n).length = n := by
  unfold linspace
  split_ifs with h0 h1
  · simp [h0]
  · simp [h1]
  · rw [List.length_map, List.length_range]

theorem linspace_head (a b : ℚ) (n : ℕ) (h : 1 ≤ n) : (linspace a b n).head? = some a := by
  unfold linspace
  split_ifs with h0 h1
  · omega
  · rfl
  · obtain ⟨m, rfl⟩ : ∃ m, n = m + 1 := ⟨n - 1, by omega⟩
    rw [List.range_succ_eq_map]
    simp

/-- A corner read from an array whose entries all equal `a` is `a` when
the indices are in range. -/
theorem corner_eq_of_bounds (M : List (List FVal)) (a : FVal) (h : allEntries M a)
    (r c : ℕ) (hr : r < M.length) (hc : c < (M.get ⟨r, hr⟩).length) :
    (M.getD r []).getD c (FVal.fin 0) = a := by
  have h1 : M.getD r [] = M.get ⟨r, hr⟩ := by
    rw [List.getD_eq_get?, List.get?_eq_get hr]
    rfl
  rw [h1]
  have h2 : (M.get ⟨r, hr⟩).getD c (FVal.fin 0) = (M.get ⟨r, hr⟩).get ⟨c, hc⟩ := by
    rw [List.getD_eq_get?, List.get?_eq_get hc]
    rfl
  rw [h2]
  exact h _ (List.get_mem M r hr) _ (List.get_mem _ c hc)

/-- The cell index returned by `axisLoc` is in range on a nonempty axis. -/
theorem axisLoc_fst_lt (g : List ℚ) (v : ℚ) (h : g ≠ []) : (axisLoc g v).1 < g.length := by
  unfold axisLoc
  have hg : 1 ≤ g.length := List.length_pos.mpr h
  split_ifs with h1
  · simpa using hg
  · simp only []
    omega

/-- On an axis with at least two points both cell endpoints are in range. -/
theorem axisLoc_fst_succ_lt (g : List ℚ) (v : ℚ) (h : 2 ≤ g.length) :
    (axisLoc g v).1 + 1 < g.length := by
  unfold axisLoc
  split_ifs with h1
  · omega
  · simp only []
    omega

theorem interp2_allnan (ys xs : List ℚ) (M : List (List FVal)) (y x : ℚ)
    (hys : ys ≠ []) (hxs : xs ≠ [])
    (hlen : M.length = ys.length) (hrows : ∀ r ∈ M, r.length = xs.length)
    (h : allEntries M FVal.nan) : interp2 ys xs M y x = FVal.nan := by
  have hr : (axisLoc ys y).1 < M.length := hlen ▸ axisLoc_fst_lt ys y hys
  have hc : (axisLoc xs x).1 < (M.get ⟨(axisLoc ys y).1, hr⟩).length := by
    rw [hrows _ (List.get_mem M _ hr)]
    exact axisLoc_fst_lt xs x hxs
  unfold interp2
  simp only [corner_eq_of_bounds M FVal.nan h _ _ hr hc, FVal.mul_nan, FVal.nan_add]

theorem shape_canonY (ys : List ℚ) (M : List (List FVal)) (xs : List ℚ)
    (hlen : M.length = ys.length) (hrows : ∀ r ∈ M, r.length = xs.length) :
    (canonY ys M).2.length = (canonY ys M).1.length ∧
      ∀ r ∈ (canonY ys M).2, r.length = xs.length := by
  unfold canonY
  split
  · exact ⟨by simpa using hlen, fun r hr => hrows r (List.mem_reverse.mp hr)⟩
  · exact ⟨hlen, hrows⟩

theorem shape_canonX (xs : List ℚ) (M : List (List FVal)) (ys : List ℚ)
    (hlen : M.length = ys.length) (hrows : ∀ r ∈ M, r.length = xs.length) :
    (canonX xs M).2.length = ys.length ∧
      ∀ r ∈ (canonX xs M).2, r.length = (canonX xs M).1.length := by
  unfold canonX
  split
  · refine ⟨by simpa using hlen, fun r hr => ?_⟩
    obtain ⟨r0, hr0, rfl⟩ := List.mem_map.mp hr
    simpa using hrows r0 hr0
  · exact ⟨hlen, hrows⟩

theorem canonY_fst_length (ys : List ℚ) (M : List (List FVal)) :
    (canonY ys M).1.length = ys.length := by
  unfold canonY; split <;> simp

theorem canonX_fst_length (xs : List ℚ) (M : List (List FVal)) :
    (canonX xs M).1.length = xs.length := by
  unfold canonX; split <;> simp

theorem interp2c_allnan (ys xs : List ℚ) (M : List (List FVal)) (y x : ℚ)
    (hys : ys ≠ []) (hxs : xs ≠ [])
    (hlen : M.length = ys.length) (hrows : ∀ r ∈ M, r.length = xs.length)
    (h : allEntries M FVal.nan) : interp2c ys xs M y x = FVal.nan := by
  unfold interp2c
  obtain ⟨h1, h2⟩ := shape_canonY ys M xs hlen hrows
  obtain ⟨h3, h4⟩ := shape_canonX xs (canonY ys M).2 (canonY ys M).1 (by rw [h1]) h2
  refine interp2_allnan _ _ _ y x ?_ ?_ ?_ h4
    (allEntries_canonX _ _ _ (allEntries_canonY _ _ _ h))
  · intro hc
    apply hys
    have := canonY_fst_length ys M
    rw [hc] at this
    exact List.length_eq_zero.mp this.symm
  · intro hc
    apply hxs
    have := canonX_fst_length xs (canonY ys M).2
    rw [hc] at this
    exact List.length_eq_zero.mp this.symm
  · exact h3

theorem interp2_const (ys xs : List ℚ) (M : List (List FVal)) (c : ℚ) (y x : ℚ)
    (h2y : 2 ≤ ys.length) (h2x : 2 ≤ xs.length)
    (hlen : M.length = ys.length) (hrows : ∀ r ∈ M, r.length = xs.length)
    (hc : allEntries M (FVal.fin c)) : interp2 ys xs M y x = FVal.fin c := by
  have hi1 : (axisLoc ys y).1 + 1 < M.length := hlen ▸ axisLoc_fst_succ_lt ys y h2y
  have hi0 : (axisLoc ys y).1 < M.length := by omega
  have hx1 : (axisLoc xs x).1 + 1 < xs.length := axisLoc_fst_succ_lt xs x h2x
  have hr0 : (M.get ⟨(axisLoc ys y).1, hi0⟩).length = xs.length :=
    hrows _ (List.get_mem M _ hi0)
  have hr1 : (M.get ⟨(axisLoc ys y).1 + 1, hi1⟩).length = xs.length :=
    hrows _ (List.get_mem M _ hi1)
  have c00 := corner_eq_of_bounds M (FVal.fin c) hc (axisLoc ys y).1 (axisLoc xs x).1
    hi0 (by omega)
  have c01 := corner_eq_of_bounds M (FVal.fin c) hc (axisLoc ys y).1 ((axisLoc xs x).1 + 1)
    hi0 (by omega)
  have c10 := corner_eq_of_bounds M (FVal.fin c) hc ((axisLoc ys y).1 + 1) (axisLoc xs x).1
    hi1 (by omega)
  have c11 := corner_eq_of_bounds M (FVal.fin c) hc ((axisLoc ys y).1 + 1) ((axisLoc xs x).1 + 1)
    hi1 (by omega)
  unfold interp2
  simp only [c00, c01, c10, c11, FVal.mul, FVal.add]
  congr 1
  ring

theorem interp2c_const (ys xs : List ℚ) (M : List (List FVal)) (c : ℚ) (y x : ℚ)
    (h2y : 2 ≤ ys.length) (h2x : 2 ≤ xs.length)
    (hlen : M.length = ys.length) (hrows : ∀ r ∈ M, r.length = xs.length)
    (hc : allEntries M (FVal.fin c)) : interp2c ys xs M y x = FVal.fin c := by
  unfold interp2c
  obtain ⟨h1, h2⟩ := shape_canonY ys M xs hlen hrows
  obtain ⟨h3, h4⟩ := shape_canonX xs (canonY ys M).2 (canonY ys M).1 (by rw [h1]) h2
  exact interp2_const _ _ _ c y x (by rw [canonY_fst_length]; exact h2y)
    (by rw [canonX_fst_length]; exact h2x) h3 h4
    (allEntries_canonX _ _ _ (allEntries_canonY _ _ _ hc))

/-- If either divided component of the interpolated velocity is non-finite,
the `velocity_field` closure substitutes the zero vector. -/
theorem velocity_field_zero_of_nan (nm : Bool) (ys xs : List ℚ) (U V : List (List FVal))
    (t : ℚ) (xy : Vec2)
    (h : (interp2c ys xs U xy.2 xy.1).div (normalizer nm ys xs U V xy.2 xy.1) = FVal.nan ∨
      (interp2c ys xs V xy.2 xy.1).div (normalizer nm ys xs U V xy.2 xy.1) = FVal.nan) :
    velocity_field nm ys xs U V t xy = (0, 0) := by
  rcases h with h | h
  · cases hv : (interp2c ys xs V xy.2 xy.1).div (normalizer nm ys xs U V xy.2 xy.1) <;>
      simp [velocity_field, h, hv]
  · cases hu : (interp2c ys xs U xy.2 xy.1).div (normalizer nm ys xs U V xy.2 xy.1) <;>
      simp [velocity_field, h, hu]

/-- Decompose membership in a `zipWith`. -/
theorem mem_of_zipWith {α β γ : Type} {f : α → β → γ} :
    ∀ {l₁ : List α} {l₂ : List β} {c : γ}, c ∈ List.zipWith f l₁ l₂ →
      ∃ a ∈ l₁, ∃ b ∈ l₂, c = f a b := by
  intro l₁
  induction l₁ with
  | nil => intro l₂ c hc; simp [List.zipWith] at hc
  | cons a as ih =>
    intro l₂ c hc
    cases l₂ with
    | nil => simp [List.zipWith] at hc
    | cons b bs =>
      simp only [List.zipWith, List.mem_cons] at hc
      rcases hc with rfl | hc
      · exact ⟨a, List.mem_cons_self a as, b, List.mem_cons_self b bs, rfl⟩
      · obtain ⟨a1, ha1, b1, hb1, rfl⟩ := ih hc
        exact ⟨a1, List.mem_cons_of_mem a ha1, b1, List.mem_cons_of_mem b hb1, rfl⟩

theorem ratSqrt_zero : ratSqrt 0 = 0 := by
  unfold ratSqrt
  simp

/-- The speed array of the identically zero field is identically zero. -/
theorem speedArr_allzero (U V : List (List FVal))
    (hU : allEntries U (FVal.fin 0)) (hV : allEntries V (FVal.fin 0)) :
    allEntries (speedArr U V) (FVal.fin 0) := by
  intro r hr v hv
  obtain ⟨ru, hru, rv, hrv, rfl⟩ := mem_of_zipWith hr
  obtain ⟨u, hu, w, hw, rfl⟩ := mem_of_zipWith hv
  rw [hU ru hru u hu, hV rv hrv w hw]
  show FVal.root (((FVal.fin 0).mul (FVal.fin 0)).add ((FVal.fin 0).mul (FVal.fin 0))) =
    FVal.fin 0
  simp [FVal.mul, FVal.add, FVal.root, ratSqrt_zero]

/-- On the identically zero field the velocity function is identically the
zero vector, under either normalization setting (without normalization
`0 / 1 = 0`; with normalization the interpolated speed is 0, the division
is non-finite, and the stall convention substitutes zero). -/
theorem velocity_field_zero_field (nm : Bool) (ys xs : List ℚ) (U V : List (List FVal))
    (t : ℚ) (xy : Vec2)
    (hU : allEntries U (FVal.fin 0)) (hV : allEntries V (FVal.fin 0)) :
    velocity_field nm ys xs U V t xy = (0, 0) := by
  have hu : interp2c ys xs U xy.2 xy.1 = FVal.fin 0 := interp2c_allzero _ _ _ _ _ hU
  have hv : interp2c ys xs V xy.2 xy.1 = FVal.fin 0 := interp2c_allzero _ _ _ _ _ hV
  cases nm with
  | false =>
    have hn : normalizer false ys xs U V xy.2 xy.1 = FVal.fin 1 := rfl
    simp [velocity_field, hu, hv, hn, FVal.div]
  | true =>
    have hn : normalizer true ys xs U V xy.2 xy.1 = FVal.fin 0 := by
      unfold normalizer
      simp only [if_pos rfl]
      exact interp2c_allzero _ _ _ _ _ (speedArr_allzero U V hU hV)
    simp [velocity_field, hu, hv, hn, FVal.div]

/-- If the velocity function vanishes identically at the seed, every sample
of an integration run sampled on a `linspace` starting at 0 equals the
seed: the run starts at the seed and stalls there. -/
theorem solve_all_eq_of_zero (S : IvpSolver) (f : ℚ → Vec2 → Vec2) (span : ℚ × ℚ)
    (y0 : Vec2) (b : ℚ) (n : ℕ) (h0 : ∀ t, f t y0 = (0, 0)) :
    ∀ q ∈ S.solve f span y0 (linspace 0 b n), q = y0 := by
  intro q hq
  obtain ⟨j, hj⟩ := List.mem_iff_get?.mp hq
  have hjl : j < (S.solve f span y0 (linspace 0 b n)).length := by
    obtain ⟨hlt, _⟩ := List.get?_eq_some.mp hj
    exact hlt
  rw [S.length_eq, linspace_length] at hjl
  have hn : 1 ≤ n := by omega
  have hhead : (S.solve f span y0 (linspace 0 b n)).head? = some y0 :=
    S.first_eq f span y0 _ (linspace_head 0 b n hn)
  have h0get : (S.solve f span y0 (linspace 0 b n)).get? 0 = some y0 := by
    rw [List.get?_zero]; exact hhead
  have := S.stall f span y0 _ 0 j y0 h0get h0 (Nat.zero_le j)
    (by rw [linspace_length]; exact hjl)
  rw [hj] at this
  exact Option.some_inj.mp this

/-- Claim C1: for every field, seed, duration, sample count (at least 1)
and solver method, the merged trajectory has exactly
`2 * sample_count - 1` rows; each directed run yields exactly
`sample_count` sampled points (never truncated early); and once the
velocity (the run's derivative) is identically zero at a sampled point,
every later sampled point of that run equals that stall position. -/
theorem C1_length_and_stall (S : IvpSolver) (X Y : List (List ℚ)) (U V : List (List FVal))
    (start_point : Vec2) (t_max : ℚ) (max_points : ℕ) (normalize_velocity : Bool)
    (hn : 1 ≤ max_points) :
    (streamline_points S X Y U V start_point t_max max_points normalize_velocity).length =
      2 * max_points - 1 ∧
    (fwd_points S X Y U V start_point t_max max_points normalize_velocity).length =
      max_points ∧
    (bwd_points S X Y U V start_point t_max max_points normalize_velocity).length =
      max_points ∧
    (∀ i j p,
      (fwd_points S X Y U V start_point t_max max_points normalize_velocity).get? i =
        some p →
      (∀ t, velocity_field normalize_velocity (col0 Y) (row0 X) U V t p = (0, 0)) →
      i ≤ j → j < max_points →
      (fwd_points S X Y U V start_point t_max max_points normalize_velocity).get? j =
        some p) ∧
    (∀ i j p,
      (bwd_points S X Y U V start_point t_max max_points normalize_velocity).get? i =
        some p →
      (∀ t, velocity_field normalize_velocity (col0 Y) (row0 X) U V t p = (0, 0)) →
      i ≤ j → j < max_points →
      (bwd_points S X Y U V start_point t_max max_points normalize_velocity).get? j =
        some p) := by
  have hf : (fwd_points S X Y U V start_point t_max max_points normalize_velocity).length =
      max_points := by
    unfold fwd_points t_eval_fwd
    rw [S.length_eq, linspace_length]
  have hb : (bwd_points S X Y U V start_point t_max max_points normalize_velocity).length =
      max_points := by
    unfold bwd_points t_eval_bwd
    rw [S.length_eq, linspace_length]
  refine ⟨?_, hf, hb, ?_, ?_⟩
  · unfold streamline_points
    rw [List.length_append, List.length_reverse, List.length_drop, hb, hf]
    omega
  · intro i j p hi hz hij hj
    unfold fwd_points at hi ⊢
    exact S.stall _ _ _ _ i j p hi hz hij
      (by unfold t_eval_fwd; rw [linspace_length]; exact hj)
  · intro i j p hi hz hij hj
    unfold bwd_points at hi ⊢
    exact S.stall _ _ _ _ i j p hi hz hij
      (by unfold t_eval_bwd; rw [linspace_length]; exact hj)

theorem C1_length_and_stall_witness :
    1 ≤ 2 ∧
    (streamline_points eulerSolver [[0, 1], [0, 1]] [[0, 0], [1, 1]]
      [[FVal.fin 1, FVal.fin 1], [FVal.fin 1, FVal.fin 1]]
      [[FVal.fin 0, FVal.fin 0], [FVal.fin 0, FVal.fin 0]]
      (3, 1/2) 1 2 false).length = 2 * 2 - 1 :=
  ⟨by norm_num,
    (C1_length_and_stall eulerSolver [[0, 1], [0, 1]] [[0, 0], [1, 1]]
      [[FVal.fin 1, FVal.fin 1], [FVal.fin 1, FVal.fin 1]]
      [[FVal.fin 0, FVal.fin 0], [FVal.fin 0, FVal.fin 0]]
      (3, 1/2) 1 2 false (by norm_num)).1⟩

/-- Claim C2: the merged trajectory is exactly the backward run reversed
followed by the forward run with its first point dropped; both runs start
at the seed (their sample at time 0), and consequently the merged output
carries the seed at 0-based index `sample_count - 1`. -/
theorem C2_assembly_seed_index (S : IvpSolver) (X Y : List (List ℚ)) (U V : List (List FVal))
    (start_point : Vec2) (t_max : ℚ) (max_points : ℕ) (normalize_velocity : Bool) :
    streamline_points S X Y U V start_point t_max max_points normalize_velocity =
      (bwd_points S X Y U V start_point t_max max_points normalize_velocity).reverse ++
        (fwd_points S X Y U V start_point t_max max_points normalize_velocity).drop 1 ∧
    (1 ≤ max_points →
      (fwd_points S X Y U V start_point t_max max_points normalize_velocity).head? =
        some start_point ∧
      (bwd_points S X Y U V start_point t_max max_points normalize_velocity).head? =
        some start_point ∧
      (streamline_points S X Y U V start_point t_max max_points normalize_velocity).get?
        (max_points - 1) = some start_point) := by
  refine ⟨rfl, fun hn => ?_⟩
  have hfh : (fwd_points S X Y U V start_point t_max max_points normalize_velocity).head? =
      some start_point := by
    unfold fwd_points
    exact S.first_eq _ _ _ _ (by unfold t_eval_fwd; exact linspace_head 0 t_max _ hn)
  have hbh : (bwd_points S X Y U V start_point t_max max_points normalize_velocity).head? =
      some start_point := by
    unfold bwd_points
    exact S.first_eq _ _ _ _ (by unfold t_eval_bwd; exact linspace_head 0 (-t_max) _ hn)
  have hblen : (bwd_points S X Y U V start_point t_max max_points normalize_velocity).length =
      max_points := by
    unfold bwd_points t_eval_bwd
    rw [S.length_eq, linspace_length]
  refine ⟨hfh, hbh, ?_⟩
  unfold streamline_points
  rw [List.get?_append (by rw [List.length_reverse, hblen]; omega)]
  rw [List.get?_reverse (by rw [hblen]; omega)]
  rw [hblen]
  have h0 : max_points - 1 - (max_points - 1) = 0 := by omega
  rw [h0, List.get?_zero, hbh]

theorem C2_assembly_seed_index_witness :
    1 ≤ 2 ∧
    (streamline_points eulerSolver [[0, 1], [0, 1]] [[0, 0], [1, 1]]
      [[FVal.fin 1, FVal.fin 1], [FVal.fin 1, FVal.fin 1]]
      [[FVal.fin 0, FVal.fin 0], [FVal.fin 0, FVal.fin 0]]
      (3, 1/2) 1 2 false).get? (2 - 1) = some (3, 1/2) :=
  ⟨by norm_num,
    ((C2_assembly_seed_index eulerSolver [[0, 1], [0, 1]] [[0, 0], [1, 1]]
      [[FVal.fin 1, FVal.fin 1], [FVal.fin 1, FVal.fin 1]]
      [[FVal.fin 0, FVal.fin 0], [FVal.fin 0, FVal.fin 0]]
      (3, 1/2) 1 2 false).2 (by norm_num)).2.2⟩

/-- Claim C6: for the identically zero field, every point of the returned
trajectory equals the seed, for every seed, duration, sample count, solver
method and normalization setting. -/
theorem C6_zero_field_collapse (S : IvpSolver) (X Y : List (List ℚ)) (U V : List (List FVal))
    (start_point : Vec2) (t_max : ℚ) (max_points : ℕ) (normalize_velocity : Bool)
    (hU : allEntries U (FVal.fin 0)) (hV : allEntries V (FVal.fin 0)) :
    ∀ p ∈ streamline_points S X Y U V start_point t_max max_points normalize_velocity,
      p = start_point := by
  intro p hp
  have hz : ∀ t, velocity_field normalize_velocity (col0 Y) (row0 X) U V t start_point =
      (0, 0) := fun t =>
    velocity_field_zero_field normalize_velocity (col0 Y) (row0 X) U V t start_point hU hV
  unfold streamline_points at hp
  rcases List.mem_append.mp hp with h | h
  · have hmem := List.mem_reverse.mp h
    unfold bwd_points t_eval_bwd at hmem
    exact solve_all_eq_of_zero S _ _ start_point (-t_max) max_points hz p hmem
  · have hmem := List.mem_of_mem_drop h
    unfold fwd_points t_eval_fwd at hmem
    exact solve_all_eq_of_zero S _ _ start_point t_max max_points hz p hmem

theorem C6_zero_field_collapse_witness :
    (∀ r ∈ [[FVal.fin 0, FVal.fin 0], [FVal.fin 0, FVal.fin 0]], ∀ v ∈ r, v = FVal.fin 0) ∧
    ∀ p ∈ streamline_points eulerSolver [[0, 1], [0, 1]] [[0, 0], [1, 1]]
      [[FVal.fin 0, FVal.fin 0], [FVal.fin 0, FVal.fin 0]]
      [[FVal.fin 0, FVal.fin 0], [FVal.fin 0, FVal.fin 0]]
      ((1 : ℚ)/2, (1 : ℚ)/2) 1 3 true, p = ((1 : ℚ)/2, (1 : ℚ)/2) := by
  have hz : ∀ r ∈ [[FVal.fin 0, FVal.fin 0], [FVal.fin 0, FVal.fin 0]],
      ∀ v ∈ r, v = FVal.fin 0 := by
    intro r hr v hv
    fin_cases hr <;> fin_cases hv <;> rfl
  exact ⟨hz, C6_zero_field_collapse eulerSolver [[0, 1], [0, 1]] [[0, 0], [1, 1]]
    [[FVal.fin 0, FVal.fin 0], [FVal.fin 0, FVal.fin 0]]
    [[FVal.fin 0, FVal.fin 0], [FVal.fin 0, FVal.fin 0]]
    ((1 : ℚ)/2, (1 : ℚ)/2) 1 3 true hz hz⟩

/-- Claim C3: under normalization, at every point where the interpolated
local speed is exactly zero, the velocity function used by the integrator
returns exactly the zero vector `(0, 0)` — the division's non-finite
result is caught and substituted, never raised or propagated. -/
theorem C3_stagnation_zero_vector (ys xs : List ℚ) (U V : List (List FVal))
    (t x y : ℚ)
    (h : interp2c ys xs (speedArr U V) y x = FVal.fin 0) :
    velocity_field true ys xs U V t (x, y) = (0, 0) := by
  have hn : normalizer true ys xs U V y x = FVal.fin 0 := by
    unfold normalizer
    simpa using h
  apply velocity_field_zero_of_nan
  left
  show (interp2c ys xs U y x).div (normalizer true ys xs U V y x) = FVal.nan
  rw [hn]
  exact FVal.div_zero_nan _

theorem C3_stagnation_zero_vector_witness :
    interp2c [0, 1] [0, 1]
      (speedArr [[FVal.fin 0, FVal.fin 0], [FVal.fin 0, FVal.fin 0]]
        [[FVal.fin 0, FVal.fin 0], [FVal.fin 0, FVal.fin 0]]) (1/2) (1/2) = FVal.fin 0 ∧
    velocity_field true [0, 1] [0, 1]
      [[FVal.fin 0, FVal.fin 0], [FVal.fin 0, FVal.fin 0]]
      [[FVal.fin 0, FVal.fin 0], [FVal.fin 0, FVal.fin 0]] 0 (1/2, 1/2) = (0, 0) := by
  have hz : allEntries [[FVal.fin 0, FVal.fin 0], [FVal.fin 0, FVal.fin 0]] (FVal.fin 0) := by
    intro r hr v hv
    fin_cases hr <;> fin_cases hv <;> rfl
  have h : interp2c [0, 1] [0, 1]
      (speedArr [[FVal.fin 0, FVal.fin 0], [FVal.fin 0, FVal.fin 0]]
        [[FVal.fin 0, FVal.fin 0], [FVal.fin 0, FVal.fin 0]]) (1/2) (1/2) = FVal.fin 0 :=
    interp2c_allzero _ _ _ _ _ (speedArr_allzero _ _ hz hz)
  exact ⟨h, C3_stagnation_zero_vector [0, 1] [0, 1] _ _ 0 (1/2) (1/2) h⟩

/-- Claim C9: whenever either divided component of the interpolated
velocity is non-finite — in particular when the interpolated U or V value
itself is non-finite, as happens inside the domain when the arrays hold
NaN from masking — the integrator's velocity function returns exactly
`(0, 0)`, so trajectories stall on entering NaN-valued regions, not only
at domain edges or stagnation points. -/
theorem C9_nonfinite_zero_vector (nm : Bool) (ys xs : List ℚ) (U V : List (List FVal))
    (t x y : ℚ)
    (h : interp2c ys xs U y x = FVal.nan ∨ interp2c ys xs V y x = FVal.nan ∨
      (interp2c ys xs U y x).div (normalizer nm ys xs U V y x) = FVal.nan ∨
      (interp2c ys xs V y x).div (normalizer nm ys xs U V y x) = FVal.nan) :
    velocity_field nm ys xs U V t (x, y) = (0, 0) := by
  apply velocity_field_zero_of_nan
  rcases h with h | h | h | h
  · left
    show (interp2c ys xs U y x).div (normalizer nm ys xs U V y x) = FVal.nan
    rw [h]
    exact FVal.nan_div _
  · right
    show (interp2c ys xs V y x).div (normalizer nm ys xs U V y x) = FVal.nan
    rw [h]
    exact FVal.nan_div _
  · exact Or.inl h
  · exact Or.inr h

theorem C9_nonfinite_zero_vector_witness :
    interp2c [0, 1] [0, 1] [[FVal.nan, FVal.fin 1], [FVal.fin 1, FVal.fin 1]]
      (1/2) (1/2) = FVal.nan ∧
    velocity_field false [0, 1] [0, 1] [[FVal.nan, FVal.fin 1], [FVal.fin 1, FVal.fin 1]]
      [[FVal.fin 0, FVal.fin 0], [FVal.fin 0, FVal.fin 0]] 0 (1/2, 1/2) = (0, 0) := by
  have h : interp2c [0, 1] [0, 1] [[FVal.nan, FVal.fin 1], [FVal.fin 1, FVal.fin 1]]
      (1/2) (1/2) = FVal.nan := by
    norm_num [interp2c, canonY, canonX, strictIncb, strictDecb, interp2, axisLoc,
      List.countP, List.countP.go, List.getD, FVal.mul, FVal.add]
  exact ⟨h, C9_nonfinite_zero_vector false [0, 1] [0, 1] _ _ 0 (1/2) (1/2) (Or.inl h)⟩

/-- Claim C8: `streamline` is deterministic and stateless — it is a pure
function of its arguments (the embedding carries no mutable state, and the
source closes over none and never writes to its input arrays), so any two
calls with identical arguments and method return identical trajectories. -/
theorem C8_deterministic (S : IvpSolver)
    (X₁ X₂ Y₁ Y₂ : List (List ℚ)) (U₁ U₂ V₁ V₂ : List (List FVal))
    (s₁ s₂ : Vec2) (t₁ t₂ : ℚ) (n₁ n₂ : ℕ) (m₁ m₂ : Bool)
    (hX : X₁ = X₂) (hY : Y₁ = Y₂) (hU : U₁ = U₂) (hV : V₁ = V₂)
    (hs : s₁ = s₂) (ht : t₁ = t₂) (hn : n₁ = n₂) (hm : m₁ = m₂) :
    streamline S X₁ Y₁ U₁ V₁ s₁ t₁ n₁ m₁ = streamline S X₂ Y₂ U₂ V₂ s₂ t₂ n₂ m₂ := by
  subst hX hY hU hV hs ht hn hm
  rfl

theorem C8_deterministic_witness :
    streamline eulerSolver [[0, 1], [0, 1]] [[0, 0], [1, 1]]
      [[FVal.fin 1, FVal.fin 1], [FVal.fin 1, FVal.fin 1]]
      [[FVal.fin 0, FVal.fin 0], [FVal.fin 0, FVal.fin 0]] (3, 1/2) 1 2 false =
    streamline eulerSolver [[0, 1], [0, 1]] [[0, 0], [1, 1]]
      [[FVal.fin 1, FVal.fin 1], [FVal.fin 1, FVal.fin 1]]
      [[FVal.fin 0, FVal.fin 0], [FVal.fin 0, FVal.fin 0]] (3, 1/2) 1 2 false :=
  C8_deterministic eulerSolver _ _ _ _ _ _ _ _ _ _ _ _ _ _ _ _
    rfl rfl rfl rfl rfl rfl rfl rfl

/-- Claim C10: the trajectory depends on the meshgrid arguments only
through the first row of `X` and the first column of `Y`: calls whose `X`
arrays agree on row 0 and whose `Y` arrays agree on column 0 (all other
arguments identical) return identical results, regardless of the remaining
meshgrid entries. -/
theorem C10_row0_col0_only (S : IvpSolver) (X X' Y Y' : List (List ℚ))
    (U V : List (List FVal)) (start_point : Vec2) (t_max : ℚ) (max_points : ℕ)
    (normalize_velocity : Bool)
    (hX : row0 X = row0 X') (hY : col0 Y = col0 Y') :
    streamline S X Y U V start_point t_max max_points normalize_velocity =
      streamline S X' Y' U V start_point t_max max_points normalize_velocity := by
  unfold streamline streamline_points fwd_points bwd_points
  rw [hX, hY]

theorem C10_row0_col0_only_witness :
    row0 [[(0 : ℚ), 1], [5, 6]] = row0 [[(0 : ℚ), 1], [7, 8]] ∧
    col0 [[(0 : ℚ), 9], [1, 9]] = col0 [[(0 : ℚ), 4], [1, 3]] ∧
    streamline eulerSolver [[0, 1], [5, 6]] [[0, 9], [1, 9]]
      [[FVal.fin 1, FVal.fin 1], [FVal.fin 1, FVal.fin 1]]
      [[FVal.fin 0, FVal.fin 0], [FVal.fin 0, FVal.fin 0]] (3, 1/2) 1 2 false =
    streamline eulerSolver [[0, 1], [7, 8]] [[0, 4], [1, 3]]
      [[FVal.fin 1, FVal.fin 1], [FVal.fin 1, FVal.fin 1]]
      [[FVal.fin 0, FVal.fin 0], [FVal.fin 0, FVal.fin 0]] (3, 1/2) 1 2 false :=
  ⟨rfl, rfl,
    C10_row0_col0_only eulerSolver [[0, 1], [5, 6]] [[0, 1], [7, 8]]
      [[0, 9], [1, 9]] [[0, 4], [1, 3]]
      [[FVal.fin 1, FVal.fin 1], [FVal.fin 1, FVal.fin 1]]
      [[FVal.fin 0, FVal.fin 0], [FVal.fin 0, FVal.fin 0]] (3, 1/2) 1 2 false rfl rfl⟩

/-- The well-formedness condition that `RegularGridInterpolator`
construction enforces for this field: both coordinate axes strictly
monotonic (no duplicates) and both value arrays shaped like the grid. -/
def wellFormed (ys xs : List ℚ) (U V : List (List FVal)) : Prop :=
  validAxis ys = true ∧ validAxis xs = true ∧
    shapeOkb ys xs U = true ∧ shapeOkb ys xs V = true

/-- The speed array built from two grid-shaped arrays is grid-shaped, so
the normalizer's interpolator construction can never be the failing one. -/
theorem shapeOkb_speedArr (ys xs : List ℚ) (U V : List (List FVal))
    (hU : shapeOkb ys xs U = true) (hV : shapeOkb ys xs V = true) :
    shapeOkb ys xs (speedArr U V) = true := by
  unfold shapeOkb at hU hV ⊢
  simp only [Bool.and_eq_true, beq_iff_eq, List.all_eq_true] at hU hV ⊢
  obtain ⟨hUl, hUr⟩ := hU
  obtain ⟨hVl, hVr⟩ := hV
  constructor
  · unfold speedArr
    rw [List.length_zipWith, hUl, hVl, Nat.min_self]
  · intro r hr
    obtain ⟨ru, hru, rv, hrv, rfl⟩ := mem_of_zipWith hr
    rw [List.length_zipWith, hUr ru hru, hVr rv hrv, Nat.min_self]

/-- Claim C7: `streamline` fails if and only if the field is malformed —
a coordinate axis that is not strictly monotonic (or has duplicates), or a
U/V array whose shape does not match the grid — and the failure happens at
interpolator construction, before any integration; for every well-formed
field the call returns the assembled trajectory without raising (the
normalizer's extra construction under normalization can never be the
failing one, since the speed array inherits the validated shape). -/
theorem C7_error_iff_malformed (S : IvpSolver) (X Y : List (List ℚ)) (U V : List (List FVal))
    (start_point : Vec2) (t_max : ℚ) (max_points : ℕ) (normalize_velocity : Bool) :
    (streamline S X Y U V start_point t_max max_points normalize_velocity =
      Except.ok (streamline_points S X Y U V start_point t_max max_points
        normalize_velocity) ↔ wellFormed (col0 Y) (row0 X) U V) ∧
    ((∃ e, streamline S X Y U V start_point t_max max_points normalize_velocity =
      Except.error e) ↔ ¬ wellFormed (col0 Y) (row0 X) U V) := by
  unfold streamline
  by_cases hA : validAxis (col0 Y) = true <;>
    by_cases hB : validAxis (row0 X) = true <;>
      by_cases hU : shapeOkb (col0 Y) (row0 X) U = true <;>
        by_cases hV : shapeOkb (col0 Y) (row0 X) V = true
  · cases normalize_velocity with
    | false =>
      simp [checkInterp, hA, hB, hU, hV, wellFormed, Bind.bind, Except.bind,
        Pure.pure, Except.pure]
    | true =>
      simp [checkInterp, hA, hB, hU, hV, wellFormed, Bind.bind, Except.bind,
        Pure.pure, Except.pure, shapeOkb_speedArr _ _ _ _ hU hV]
  all_goals
    simp [checkInterp, hA, hB, hU, hV, wellFormed, Bind.bind, Except.bind]

/-- Claim C4, counterexample: on the grid `[0,1] x [0,1]` with U equal to
the x-coordinate at each lattice point, the finite point `(2, 1/2)` lies
strictly outside the domain, the sampler returns the linearly extrapolated
value 2, but clamping the point to the domain boundary would give 1 — so
the sampler's out-of-domain value is not the boundary-clamped
("extend to boundary") value claimed. -/
theorem C4_clamp_counterexample :
    strictlyOutside [(0 : ℚ), 1] [(0 : ℚ), 1] (2, 1/2) ∧
    interp2c [(0 : ℚ), 1] [(0 : ℚ), 1] [[FVal.fin 0, FVal.fin 1], [FVal.fin 0, FVal.fin 1]]
      (1/2) 2 = FVal.fin 2 ∧
    clampedEdgeValue [(0 : ℚ), 1] [(0 : ℚ), 1]
      [[FVal.fin 0, FVal.fin 1], [FVal.fin 0, FVal.fin 1]] (1/2) 2 = FVal.fin 1 ∧
    FVal.fin (2 : ℚ) ≠ FVal.fin (1 : ℚ) := by
  refine ⟨?_, ?_, ?_, ?_⟩
  · norm_num [strictlyOutside, axisLo, axisHi, List.getLastD]
  · norm_num [interp2c, canonY, canonX, strictIncb, strictDecb, interp2, axisLoc,
      List.countP, List.countP.go, List.getD, FVal.mul, FVal.add]
  · norm_num [clampedEdgeValue, clampCoord, axisLo, axisHi, List.getLastD,
      interp2c, canonY, canonX, strictIncb, strictDecb, interp2, axisLoc,
      List.countP, List.countP.go, List.getD, FVal.mul, FVal.add]
  · intro h
    rw [FVal.fin.injEq] at h
    norm_num at h

/-- Claim C4 (amended): for every finite point — outside the domain
included — the sampler does not fail; it returns the bilinear formula of
the nearest edge cell with unclamped weights (linear extrapolation, scipy
`fill_value=None`).  This agrees with clamping to the boundary when the
edge cells are constant (proved here for constant arrays); the
counterexample shows they differ in general. -/
theorem C4_extrapolation_amended (ys xs : List ℚ) (M : List (List FVal)) (c : ℚ) (y x : ℚ)
    (h2y : 2 ≤ ys.length) (h2x : 2 ≤ xs.length)
    (hsh : shapeOkb ys xs M = true)
    (hc : allEntries M (FVal.fin c)) :
    interp2c ys xs M y x = FVal.fin c ∧
    interp2c ys xs M y x = clampedEdgeValue ys xs M y x := by
  have hsh' := hsh
  unfold shapeOkb at hsh'
  simp only [Bool.and_eq_true, beq_iff_eq, List.all_eq_true] at hsh'
  obtain ⟨hlen, hrows⟩ := hsh'
  have h1 : interp2c ys xs M y x = FVal.fin c :=
    interp2c_const ys xs M c y x h2y h2x hlen hrows hc
  have h2 : interp2c ys xs M (clampCoord ys y) (clampCoord xs x) = FVal.fin c :=
    interp2c_const ys xs M c _ _ h2y h2x hlen hrows hc
  exact ⟨h1, by rw [h1, clampedEdgeValue, h2]⟩

theorem C4_extrapolation_amended_witness :
    2 ≤ ([(0 : ℚ), 1]).length ∧
    shapeOkb [(0 : ℚ), 1] [(0 : ℚ), 1] [[FVal.fin 5, FVal.fin 5], [FVal.fin 5, FVal.fin 5]] =
      true ∧
    (interp2c [(0 : ℚ), 1] [(0 : ℚ), 1] [[FVal.fin 5, FVal.fin 5], [FVal.fin 5, FVal.fin 5]]
      (1/2) 7 = FVal.fin 5 ∧
    interp2c [(0 : ℚ), 1] [(0 : ℚ), 1] [[FVal.fin 5, FVal.fin 5], [FVal.fin 5, FVal.fin 5]]
      (1/2) 7 = clampedEdgeValue [(0 : ℚ), 1] [(0 : ℚ), 1]
        [[FVal.fin 5, FVal.fin 5], [FVal.fin 5, FVal.fin 5]] (1/2) 7) := by
  refine ⟨by norm_num, rfl, ?_⟩
  exact C4_extrapolation_amended [(0 : ℚ), 1] [(0 : ℚ), 1]
    [[FVal.fin 5, FVal.fin 5], [FVal.fin 5, FVal.fin 5]] 5 (1/2) 7
    (by norm_num) (by norm_num) rfl
    (by intro r hr v hv; fin_cases hr <;> fin_cases hv <;> rfl)

/-- Claim C5, counterexample: for the uniform finite field U = 1, V = 0 on
the grid `[0,1] x [0,1]`, the seed `(3, 1/2)` lies strictly outside the
bounding rectangle, yet the returned trajectory does not collapse to the
seed: the sampler extrapolates the finite field, the velocity at the seed
is `(1, 0)`, and the trajectory moves. -/
theorem C5_outside_seed_counterexample :
    strictlyOutside (col0 [[(0 : ℚ), 0], [1, 1]]) (row0 [[(0 : ℚ), 1], [0, 1]])
      ((3 : ℚ), 1/2) ∧
    ¬ (∀ p ∈ streamline_points eulerSolver [[(0 : ℚ), 1], [0, 1]] [[(0 : ℚ), 0], [1, 1]]
      [[FVal.fin 1, FVal.fin 1], [FVal.fin 1, FVal.fin 1]]
      [[FVal.fin 0, FVal.fin 0], [FVal.fin 0, FVal.fin 0]]
      ((3 : ℚ), 1/2) 1 2 false, p = ((3 : ℚ), 1/2)) := by
  have hcol : col0 [[(0 : ℚ), 0], [1, 1]] = [(0 : ℚ), 1] := rfl
  have hrow : row0 [[(0 : ℚ), 1], [0, 1]] = [(0 : ℚ), 1] := rfl
  constructor
  · rw [hcol, hrow]
    norm_num [strictlyOutside, axisLo, axisHi, List.getLastD]
  · have hu : interp2c [(0 : ℚ), 1] [(0 : ℚ), 1]
        [[FVal.fin 1, FVal.fin 1], [FVal.fin 1, FVal.fin 1]] (2⁻¹) 3 = FVal.fin 1 :=
      interp2c_const _ _ _ 1 _ _ (by norm_num) (by norm_num) rfl
        (by intro r hr; fin_cases hr <;> rfl)
        (by intro r hr v hv; fin_cases hr <;> fin_cases hv <;> rfl)
    have hv : interp2c [(0 : ℚ), 1] [(0 : ℚ), 1]
        [[FVal.fin 0, FVal.fin 0], [FVal.fin 0, FVal.fin 0]] (2⁻¹) 3 = FVal.fin 0 :=
      interp2c_allzero _ _ _ _ _
        (by intro r hr v hv; fin_cases hr <;> fin_cases hv <;> rfl)
    have hvel : ∀ t : ℚ, velocity_field false [(0 : ℚ), 1] [(0 : ℚ), 1]
        [[FVal.fin 1, FVal.fin 1], [FVal.fin 1, FVal.fin 1]]
        [[FVal.fin 0, FVal.fin 0], [FVal.fin 0, FVal.fin 0]] t ((3 : ℚ), 2⁻¹) = (1, 0) := by
      intro t
      simp [velocity_field, normalizer, hu, hv, FVal.div]
    have htf : t_eval_fwd 1 2 = [0, 1] := by
      norm_num [t_eval_fwd, linspace, List.range_succ]
    have htb : t_eval_bwd 1 2 = [0, -1] := by
      norm_num [t_eval_bwd, linspace, List.range_succ]
    have key : streamline_points eulerSolver [[(0 : ℚ), 1], [0, 1]] [[(0 : ℚ), 0], [1, 1]]
        [[FVal.fin 1, FVal.fin 1], [FVal.fin 1, FVal.fin 1]]
        [[FVal.fin 0, FVal.fin 0], [FVal.fin 0, FVal.fin 0]]
        ((3 : ℚ), 1/2) 1 2 false = [(2, 1/2), (3, 1/2), (4, 1/2)] := by
      unfold streamline_points bwd_points fwd_points
      rw [hcol, hrow, htf, htb]
      show (eulerSteps _ 0 ((3 : ℚ), 1/2) [0, -1]).reverse ++
        (eulerSteps _ 0 ((3 : ℚ), 1/2) [0, 1]).drop 1 = _
      simp [eulerSteps, hvel, vadd, vsmul]
      norm_num
    intro hall
    have h2 := hall (2, 1/2) (by rw [key]; simp)
    rw [Prod.ext_iff] at h2
    norm_num at h2

/-- Claim C5 (amended): a seed strictly outside the grid's bounding
rectangle yields a trajectory collapsed to the seed when the stall
convention actually zeroes the velocity there — which happens when the U
(or V) array is entirely non-finite, the NaN-masked situation the caller
relies on — but not from extrapolation alone, which keeps finite fields
finite outside the domain. -/
theorem C5_masked_collapse_amended (S : IvpSolver) (X Y : List (List ℚ))
    (U V : List (List FVal)) (start_point : Vec2) (t_max : ℚ) (max_points : ℕ)
    (normalize_velocity : Bool)
    (hout : strictlyOutside (col0 Y) (row0 X) start_point)
    (hys : col0 Y ≠ []) (hxs : row0 X ≠ [])
    (hsh : shapeOkb (col0 Y) (row0 X) U = true)
    (hU : allEntries U FVal.nan) :
    ∀ p ∈ streamline_points S X Y U V start_point t_max max_points normalize_velocity,
      p = start_point := by
  have hsh' := hsh
  unfold shapeOkb at hsh'
  simp only [Bool.and_eq_true, beq_iff_eq, List.all_eq_true] at hsh'
  obtain ⟨hlen, hrows⟩ := hsh'
  have hvz : ∀ t, velocity_field normalize_velocity (col0 Y) (row0 X) U V t start_point =
      (0, 0) := by
    intro t
    apply velocity_field_zero_of_nan
    left
    have hnan : interp2c (col0 Y) (row0 X) U start_point.2 start_point.1 = FVal.nan :=
      interp2c_allnan _ _ _ _ _ hys hxs hlen hrows hU
    rw [hnan]
    exact FVal.nan_div _
  intro p hp
  unfold streamline_points at hp
  rcases List.mem_append.mp hp with h | h
  · have hmem := List.mem_reverse.mp h
    unfold bwd_points t_eval_bwd at hmem
    exact solve_all_eq_of_zero S _ _ start_point (-t_max) max_points hvz p hmem
  · have hmem := List.mem_of_mem_drop h
    unfold fwd_points t_eval_fwd at hmem
    exact solve_all_eq_of_zero S _ _ start_point t_max max_points hvz p hmem

theorem C5_masked_collapse_amended_witness :
    strictlyOutside (col0 [[(0 : ℚ), 0], [1, 1]]) (row0 [[(0 : ℚ), 1], [0, 1]])
      ((3 : ℚ), 1/2) ∧
    (∀ r ∈ [[FVal.nan, FVal.nan], [FVal.nan, FVal.nan]], ∀ v ∈ r, v = FVal.nan) ∧
    ∀ p ∈ streamline_points eulerSolver [[(0 : ℚ), 1], [0, 1]] [[(0 : ℚ), 0], [1, 1]]
      [[FVal.nan, FVal.nan], [FVal.nan, FVal.nan]]
      [[FVal.fin 1, FVal.fin 1], [FVal.fin 1, FVal.fin 1]]
      ((3 : ℚ), 1/2) 1 2 false, p = ((3 : ℚ), 1/2) := by
  have hout : strictlyOutside (col0 [[(0 : ℚ), 0], [1, 1]]) (row0 [[(0 : ℚ), 1], [0, 1]])
      ((3 : ℚ), 1/2) := by
    have hcol : col0 [[(0 : ℚ), 0], [1, 1]] = [(0 : ℚ), 1] := rfl
    have hrow : row0 [[(0 : ℚ), 1], [0, 1]] = [(0 : ℚ), 1] := rfl
    rw [hcol, hrow]
    norm_num [strictlyOutside, axisLo, axisHi, List.getLastD]
  have hnan : ∀ r ∈ [[FVal.nan, FVal.nan], [FVal.nan, FVal.nan]], ∀ v ∈ r, v = FVal.nan := by
    intro r hr v hv
    fin_cases hr <;> fin_cases hv <;> rfl
  exact ⟨hout, hnan,
    C5_masked_collapse_amended eulerSolver [[(0 : ℚ), 1], [0, 1]] [[(0 : ℚ), 0], [1, 1]]
      [[FVal.nan, FVal.nan], [FVal.nan, FVal.nan]]
      [[FVal.fin 1, FVal.fin 1], [FVal.fin 1, FVal.fin 1]]
      ((3 : ℚ), 1/2) 1 2 false hout (by simp [col0]) (by simp [row0]) rfl hnan⟩
